import Mathlib

/-!
Verification development for the typst-oxide indexing core.

The Rust sources are shallowly embedded:
* `src/parser/wikilinks.rs` — regex-driven wikilink extraction, embedded as a
  deterministic maximal-munch scanner (`matchWikilink`, `scanWLAux`).  The
  character classes of the regex exclude every delimiter, so the greedy
  backtracking regex and the maximal-munch scanner agree.
* `src/parser/labels.rs` — explicit `<name>` labels and implicit heading
  labels (`matchLabelTok`, `headingLabelName`).
* `src/parser/metadata.rs` — the external `typst query` subprocess is
  reified as a `SpawnResult` input; the JSON text emitted by the tool is
  reified as the already-decoded `Option Json` (serde_json is an external
  collaborator; its `from_str`/`to_string` round trip is part of its
  contract, not of this repository).
* `src/index.rs` — the SQLite store, embedded as lists of rows in insertion
  (= ascending rowid) order.  `INSERT OR REPLACE` is modelled as SQLite
  executes it: the fresh rowid `max(ids present) + 1` is computed over the
  table as it stands at insert time — before the conflicting row is deleted —
  so a re-stored path never keeps its old row id, and the old row's related
  rows are left orphaned.

Unicode scope, stated once here: the regex `\s` / `char::is_whitespace`
class is modelled in full (`rustIsWhitespace`); `char::to_lowercase` and
`char::is_alphanumeric` enter only the heading-name transform and are
embedded on the ASCII fragment (`asciiToLower`, `asciiIsAlphanum`), where
they coincide with Rust's Unicode versions — the heading-derivation theorem
is quantified over ASCII heading text accordingly.
-/

namespace TypstOxide

/-- JSON values as produced by serde_json, restricted to integer numbers
(floating point is irrelevant to every claim; only the string / array /
object shape distinctions matter). -/
inductive Json where
  | null : Json
  | bool (b : Bool) : Json
  | num (n : Int) : Json
  | str (s : String) : Json
  | arr (xs : List Json) : Json
  | obj (fields : List (String × Json)) : Json
deriving Repr

/-- Wikilink record, from `parser/models.rs` (`target`, `alias`, `label`,
1-based `line`, 1-based character `column`). -/
structure Wikilink where
  target : String
  aliasName : Option String
  label : Option String
  line : Nat
  column : Nat
deriving Repr, DecidableEq

/-- Label record.  `parser/labels.rs`, the parser tests and the spec's data
model carry an `is_implicit` flag (true for heading-derived labels); the
stale copy of the struct in `parser/models.rs` lacks the field.  The
embedding follows the parser, which is the component that constructs the
values. -/
structure Label where
  name : String
  line : Nat
  column : Nat
  is_implicit : Bool
deriving Repr, DecidableEq

/-- Front-matter metadata, from `parser/models.rs`.  The Rust `custom` field
is a `HashMap`; it is modelled as an association list in insertion order
(a `HashMap` guarantees key uniqueness, which theorems take as a
hypothesis where they need it). -/
structure Metadata where
  title : Option String
  tags : List String
  aliasName : List String
  custom : List (String × Json)
deriving Repr

/-- `Metadata::default()`. -/
def Metadata.defaultVal : Metadata := ⟨none, [], [], []⟩

/-- Parsed file aggregate, from `parser/models.rs`.  Paths are modelled as
lists of components (see `stripRoot`). -/
structure ParsedFile where
  path : List String
  metadata : Metadata
  wikilinks : List Wikilink
  labels : List Label
deriving Repr

/-! ## Line splitting (Rust `str::lines`) -/

/-- Split a character list on `'\n'`, keeping empty segments. -/
def splitOnChar (sep : Char) : List Char → List (List Char)
  | [] => [[]]
  | c :: rest =>
    if c = sep then [] :: splitOnChar sep rest
    else
      match splitOnChar sep rest with
      | l :: ls => (c :: l) :: ls
      | [] => [[c]]

/-- Drop one trailing `'\r'`, as `str::lines` does per line. -/
def stripCR (l : List Char) : List Char :=
  if l.getLast? = some '\r' then l.dropLast else l

/-- Rust `str::lines`: split on `'\n'`, do not yield a final empty line for a
trailing newline, and strip a trailing `'\r'` from each line. -/
def rustLines (cs : List Char) : List (List Char) :=
  if cs = [] then []
  else
    let parts := splitOnChar '\n' cs
    let parts := if cs.getLast? = some '\n' then parts.dropLast else parts
    parts.map stripCR

/-! ## Wikilink scanner (`parser/wikilinks.rs`)

Regex: `\[\[([^|\]:\n]+)(?::([^|\]\n]+))?(?:\|([^|\]\n]+))?\]\]`, applied
per line with `captures_iter` (leftmost, non-overlapping).  Every character
class excludes the delimiters `|`, `]` (and `:` for the target), so greedy
matching never needs to backtrack and the regex is equivalent to the
maximal-munch scanner below. -/

/-- Characters allowed in a wikilink target: everything but `|`, `]`, `:`,
newline. -/
def wlTargetChar (c : Char) : Bool :=
  !(c = '|' || c = ']' || c = ':' || c = '\n')

/-- Characters allowed in a wikilink label or alias: everything but `|`,
`]`, newline. -/
def wlTextChar (c : Char) : Bool :=
  !(c = '|' || c = ']' || c = '\n')

/-- Try to match one wikilink at the head of `cs`; on success return
`(target, label?, alias?)` and the unconsumed remainder. -/
def matchWikilink : List Char → Option ((String × Option String × Option String) × List Char)
  | '[' :: '[' :: rest =>
    let tgt := rest.takeWhile wlTargetChar
    let r1 := rest.dropWhile wlTargetChar
    if tgt.isEmpty then none else
    match r1 with
    | ':' :: r2 =>
      let lab := r2.takeWhile wlTextChar
      let r3 := r2.dropWhile wlTextChar
      if lab.isEmpty then none else
      match r3 with
      | '|' :: r4 =>
        let al := r4.takeWhile wlTextChar
        let r5 := r4.dropWhile wlTextChar
        if al.isEmpty then none else
        match r5 with
        | ']' :: ']' :: r6 => some ((tgt.asString, some lab.asString, some al.asString), r6)
        | _ => none
      | ']' :: ']' :: r4 => some ((tgt.asString, some lab.asString, none), r4)
      | _ => none
    | '|' :: r2 =>
      let al := r2.takeWhile wlTextChar
      let r3 := r2.dropWhile wlTextChar
      if al.isEmpty then none else
      match r3 with
      | ']' :: ']' :: r4 => some ((tgt.asString, none, some al.asString), r4)
      | _ => none
    | ']' :: ']' :: r2 => some ((tgt.asString, none, none), r2)
    | _ => none
  | _ => none

/-- The exact text of a wikilink match, reassembled from its captures. -/
def renderWL (t : String) (lab al : Option String) : List Char :=
  '[' :: '[' :: t.data
    ++ (match lab with | some l => ':' :: l.data | none => [])
    ++ (match al with | some a => '|' :: a.data | none => [])
    ++ [']', ']']

/-- Scan one line left to right.  `k` is fuel (maintained `≥ cs.length`),
`pos` the 0-based character offset of `cs` within the line; after a match
the scan resumes at the match end (non-overlapping), otherwise it advances
one character, as `captures_iter` does. -/
def scanWLAux (n : Nat) : Nat → Nat → List Char → List Wikilink
  | 0, _, _ => []
  | k + 1, pos, cs =>
    match matchWikilink cs with
    | some ((t, lab, al), rest) =>
      ⟨t, al, lab, n, pos + 1⟩ ::
        scanWLAux n k (pos + (cs.length - rest.length)) rest
    | none =>
      match cs with
      | [] => []
      | _ :: r => scanWLAux n k (pos + 1) r

/-- Scan the lines, numbering from `i`. -/
def scanWLLines (i : Nat) : List (List Char) → List Wikilink
  | [] => []
  | l :: ls => scanWLAux i l.length 0 l ++ scanWLLines (i + 1) ls

/-- `WikilinkParser::parse_wikilinks`: per line, all matches left to right. -/
def parseWikilinks (content : String) : List Wikilink :=
  scanWLLines 1 (rustLines content.data)

/-! ## Label scanner (`parser/labels.rs`) -/

/-- The explicit-label character class `[a-zA-Z0-9_:.-]`. -/
def labelChar (c : Char) : Bool :=
  c.isAlpha || c.isDigit || c = '_' || c = ':' || c = '.' || c = '-'

/-- Try to match one explicit label `<name>` at the head of `cs`. -/
def matchLabelTok : List Char → Option (String × List Char)
  | '<' :: rest =>
    let nm := rest.takeWhile labelChar
    if nm.isEmpty then none else
    match rest.dropWhile labelChar with
    | '>' :: r2 => some (nm.asString, r2)
    | _ => none
  | _ => none

/-- The exact text of an explicit-label match. -/
def renderLabel (name : String) : List Char :=
  '<' :: name.data ++ ['>']

/-- Scan one line for explicit labels (fuel pattern as in `scanWLAux`). -/
def scanLabAux (n : Nat) : Nat → Nat → List Char → List Label
  | 0, _, _ => []
  | k + 1, pos, cs =>
    match matchLabelTok cs with
    | some (nm, rest) =>
      ⟨nm, n, pos + 1, false⟩ ::
        scanLabAux n k (pos + (cs.length - rest.length)) rest
    | none =>
      match cs with
      | [] => []
      | _ :: r => scanLabAux n k (pos + 1) r

/-- The regex `\s` / `char::is_whitespace` class: Unicode White_Space. -/
def rustIsWhitespace (c : Char) : Bool :=
  c.val = 0x09 || c.val = 0x0A || c.val = 0x0B || c.val = 0x0C || c.val = 0x0D ||
  c.val = 0x20 || c.val = 0x85 || c.val = 0xA0 || c.val = 0x1680 ||
  (0x2000 ≤ c.val && c.val ≤ 0x200A) ||
  c.val = 0x2028 || c.val = 0x2029 || c.val = 0x202F || c.val = 0x205F ||
  c.val = 0x3000

/-- Rust `str::trim`: drop whitespace from both ends. -/
def rustTrim (cs : List Char) : List Char :=
  ((cs.dropWhile rustIsWhitespace).reverse.dropWhile rustIsWhitespace).reverse

/-- Rust `char::to_lowercase` on the ASCII fragment, where it maps `A`-`Z`
down by 32 and leaves everything else unchanged; non-ASCII case mappings are
outside the embedding's scope (see header note). -/
def asciiToLower (c : Char) : Char := c.toLower

/-- Rust `char::is_alphanumeric` on the ASCII fragment (`0-9A-Za-z`);
non-ASCII alphanumerics are outside the embedding's scope (see header
note). -/
def asciiIsAlphanum (c : Char) : Bool := c.isAlphanum

/-- The heading-name transform from `parse_labels`: lowercase, replace every
character that is not alphanumeric / `-` / `_` by `-`, split on `-`,
discard empty segments, re-join with `-`.  The two character predicates are
embedded on the ASCII fragment, so this function equals the source's
transform exactly on ASCII heading text and only there. -/
def headingTransform (text : List Char) : String :=
  let lowered := text.map asciiToLower
  let replaced := lowered.map fun c =>
    if asciiIsAlphanum c || c = '-' || c = '_' then c else '-'
  let segs := (splitOnChar '-' replaced).filter (· ≠ [])
  (List.intercalate ['-'] segs).asString

/-- Implicit heading label of a line, if any.  The line matches
`^(=+)\s+(.+)$` iff it starts with one or more `=`, followed by a
whitespace character and at least one further character; backtracking of
the greedy `\s+` against `(.+)$` composed with the subsequent `.trim()`
makes the trimmed capture equal to `rustTrim` of everything after the
`=` run.  A label is emitted only if the trimmed text and the transformed
name are both nonempty. -/
def headingLabelName (line : List Char) : Option String :=
  let eqs := line.takeWhile (· = '=')
  let rest := line.dropWhile (· = '=')
  if eqs.isEmpty then none
  else
    match rest with
    | c :: _ :: _ =>
      if rustIsWhitespace c then
        let text := rustTrim rest
        if text.isEmpty then none
        else
          let nm := headingTransform text
          if nm = "" then none else some nm
      else none
    | _ => none

/-- Per-line label records: explicit labels first, then the implicit heading
label, exactly as `parse_labels` pushes them. -/
def lineLabels (n : Nat) (l : List Char) : List Label :=
  scanLabAux n l.length 0 l ++
    (match headingLabelName l with
     | some nm => [⟨nm, n, 1, true⟩]
     | none => [])

/-- Scan the lines for labels, numbering from `i`. -/
def scanLabLines (i : Nat) : List (List Char) → List Label
  | [] => []
  | l :: ls => lineLabels i l ++ scanLabLines (i + 1) ls

/-- `LabelParser::parse_labels`. -/
def parseLabels (content : String) : List Label :=
  scanLabLines 1 (rustLines content.data)

/-! ## Metadata extraction (`parser/metadata.rs`) -/

/-- Errors of `extract_metadata` / `parse_metadata_json`
(`MetadataError` in `parser/metadata.rs`). -/
inductive MetadataError where
  | typstNotFound : MetadataError
  | executionError (msg : String) : MetadataError
  | jsonError : MetadataError
  | invalidFormat : MetadataError
deriving Repr, DecidableEq

/-- Outcome of spawning the external `typst query` subprocess, reified as an
input to the embedded logic.  `output success stdoutJson` is a completed
process: `success` is `status.success()`, and `stdoutJson` is the result of
serde_json's `from_str` on its standard output (`none` for malformed
JSON). -/
inductive SpawnResult where
  | notFound : SpawnResult
  | failed (msg : String) : SpawnResult
  | output (success : Bool) (stdoutJson : Option Json) : SpawnResult
deriving Repr

/-- Rust `Value::as_str`. -/
def Json.asStr : Json → Option String
  | .str s => some s
  | _ => none

/-- Rust `Value::as_object().is_some()`. -/
def Json.isObj : Json → Bool
  | .obj _ => true
  | _ => false

/-- `HashMap::insert` on the association-list model: replace the value in
place if the key is present, append otherwise. -/
def insertCustom (custom : List (String × Json)) (k : String) (v : Json) :
    List (String × Json) :=
  if custom.any (fun kv => kv.1 = k) then
    custom.map fun kv => if kv.1 = k then (k, v) else kv
  else custom ++ [(k, v)]

/-- One key of the top-level JSON object, folded into `Metadata` exactly as
the loop body of `parse_metadata_json` does. -/
def metaStep (m : Metadata) (kv : String × Json) : Metadata :=
  if kv.1 = "title" then ⟨kv.2.asStr, m.tags, m.aliasName, m.custom⟩
  else if kv.1 = "tags" then
    match kv.2 with
    | .arr xs => ⟨m.title, xs.filterMap Json.asStr, m.aliasName, m.custom⟩
    | _ => m
  else if kv.1 = "alias" then
    match kv.2 with
    | .arr xs => ⟨m.title, m.tags, xs.filterMap Json.asStr, m.custom⟩
    | _ => m
  else ⟨m.title, m.tags, m.aliasName, insertCustom m.custom kv.1 kv.2⟩

/-- The shape-folding part of `parse_metadata_json`: a non-object value
yields the default metadata, an object is folded key by key. -/
def foldMetadataValue (v : Json) : Metadata :=
  match v with
  | .obj fields => fields.foldl metaStep Metadata.defaultVal
  | _ => Metadata.defaultVal

/-- `parse_metadata_json`, taking the already-decoded JSON (`none` models a
`serde_json::from_str` failure, which the source propagates as
`JsonError`). -/
def parseMetadataJson : Option Json → Except MetadataError Metadata
  | none => .error .jsonError
  | some v => .ok (foldMetadataValue v)

/-- `extract_metadata`: a spawn failure maps the io error kind
(`NotFound` ↦ `TypstNotFound`, otherwise `ExecutionError`); a non-zero exit
yields the default metadata; a successful exit parses stdout. -/
def extractMetadata : SpawnResult → Except MetadataError Metadata
  | .notFound => .error .typstNotFound
  | .failed msg => .error (.executionError msg)
  | .output success stdoutJson =>
    if success then parseMetadataJson stdoutJson
    else .ok Metadata.defaultVal

/-- Errors of `Parser::parse_file` (`ParseError` in `parser/mod.rs`);
regex-compilation and io variants are irrelevant to the embedded logic. -/
inductive ParseError where
  | metadataError (e : MetadataError) : ParseError
deriving Repr, DecidableEq

/-- `Parser::parse_file`, with the file read and the subprocess reified as
inputs: a metadata error fails the whole parse (`?` propagation), a
degraded-to-default metadata does not. -/
def parseFile (spawn : SpawnResult) (content : String) (path : List String) :
    Except ParseError ParsedFile :=
  match extractMetadata spawn with
  | .error e => .error (.metadataError e)
  | .ok md => .ok ⟨path, md, parseWikilinks content, parseLabels content⟩

/-! ## The Index (`src/index.rs`)

Paths are lists of components; the workspace root is itself a component
list and `Path::strip_prefix` / `Path::join` are component-wise.  Each
SQLite table is a list of rows in ascending-rowid order; since every insert
receives a rowid strictly larger than all rowids present at insertion time,
appending at the tail keeps the list in rowid order, and `SELECT` without
`ORDER BY` (driven by the rowid or by an equality index) returns rows in
that order. -/

/-- Content of the TEXT `value` column of the `metadata` table.  Title, tag
and alias values are stored as plain strings; custom values are stored via
`serde_json`'s `to_string`.  The sum constructor records which of the two
produced the text, standing in for the external serialization (reading the
text back with `from_str` succeeds exactly on the serialized values; plain
strings never reach that branch because their keys are matched first). -/
inductive DbValue where
  | str (s : String) : DbValue
  | json (j : Json) : DbValue
deriving Repr

/-- Escape a string literal for JSON output (escaping restricted to quote
and backslash; no claim exercises control characters). -/
def jsonEscape (s : String) : String :=
  "\"" ++ (s.data.map fun c =>
    if c = '"' then "\\\"".data else if c = '\\' then "\\\\".data else [c]).flatten.asString ++ "\""

mutual

/-- Minimal JSON printer standing in for `serde_json::to_string`. -/
def Json.encode : Json → String
  | .null => "null"
  | .bool b => if b then "true" else "false"
  | .num n => toString n
  | .str s => jsonEscape s
  | .arr xs => "[" ++ Json.encodeItems xs ++ "]"
  | .obj fs => "\x7b" ++ Json.encodeFields fs ++ "\x7d"

/-- Comma-separated encoding of array items. -/
def Json.encodeItems : List Json → String
  | [] => ""
  | [x] => Json.encode x
  | x :: y :: rest => Json.encode x ++ "," ++ Json.encodeItems (y :: rest)

/-- Comma-separated encoding of object fields. -/
def Json.encodeFields : List (String × Json) → String
  | [] => ""
  | [(k, v)] => jsonEscape k ++ ":" ++ Json.encode v
  | (k, v) :: kv :: rest =>
    jsonEscape k ++ ":" ++ Json.encode v ++ "," ++ Json.encodeFields (kv :: rest)

end

/-- The text stored in the `value` column (what `row.get::<_, String>`
returns). -/
def DbValue.asText : DbValue → String
  | .str s => s
  | .json j => j.encode

/-- `files` table row. -/
structure FileRow where
  id : Nat
  path : List String
  createdAt : Option Int
  modifiedAt : Option Int
  lastParsed : Int
deriving Repr, DecidableEq

/-- `metadata` table row. -/
structure MetaRow where
  fileId : Nat
  key : String
  value : DbValue
deriving Repr

/-- `wikilinks` table row. -/
structure WikiRow where
  fileId : Nat
  target : String
  aliasName : Option String
  label : Option String
  line : Nat
  column : Nat
deriving Repr, DecidableEq

/-- `labels` table row.  The schema declares an `is_implicit` column;
`store_file`'s INSERT omits it, so it is NULL (`none`) on every row the
code ever writes. -/
structure LabelRow where
  fileId : Nat
  name : String
  line : Nat
  column : Nat
  isImplicit : Option Bool
deriving Repr, DecidableEq

/-- The four tables of the per-workspace store. -/
structure DbState where
  files : List FileRow
  metadata : List MetaRow
  wikilinks : List WikiRow
  labels : List LabelRow
deriving Repr

/-- A freshly initialized store. -/
def emptyDb : DbState := ⟨[], [], [], []⟩

/-- Errors of the store/query operations.  `outOfScope` is the distinct
"File … is not in workspace" context of `get_relative_path`;
`invalidFileName` the "Invalid file name" context of
`get_backward_links`. -/
inductive IndexError where
  | outOfScope : IndexError
  | invalidFileName : IndexError
deriving Repr, DecidableEq

/-- `Path::strip_prefix`, component-wise; `none` is the error case. -/
def stripRoot : List String → List String → Option (List String)
  | [], p => some p
  | _ :: _, [] => none
  | r :: rs, q :: qs => if r = q then stripRoot rs qs else none

/-- Rust `Path::file_stem` on a component list: the last component with the
part after its final dot removed, except that a leading sole dot is kept;
`..` (and an empty path) have no stem.  Component lists are assumed
normalized (no `.` components). -/
def stemOf (name : String) : String :=
  let rev := name.data.reverse
  match rev.dropWhile (· ≠ '.') with
  | [] => name
  | _ :: before =>
    if before.isEmpty then name else before.reverse.asString

/-- File stem of a path, `none` when no file name is extractable. -/
def fileStem (p : List String) : Option String :=
  match p.getLast? with
  | none => none
  | some name => if name = ".." then none else some (stemOf name)

/-- Largest id present in the `files` table (0 when empty); SQLite assigns
`maxFileId + 1` to the next inserted row. -/
def maxFileId (files : List FileRow) : Nat :=
  files.foldr (fun f m => max f.id m) 0

/-- The `metadata` rows `store_file` inserts for a parsed file, in insertion
order: title (if any), tags, aliases, then custom entries (custom values
serialized with `to_string`). -/
def metaRowsOf (fid : Nat) (md : Metadata) : List MetaRow :=
  (match md.title with
   | some t => [⟨fid, "title", .str t⟩]
   | none => [])
  ++ md.tags.map (fun t => (⟨fid, "tags", .str t⟩ : MetaRow))
  ++ md.aliasName.map (fun a => (⟨fid, "alias", .str a⟩ : MetaRow))
  ++ md.custom.map (fun kv => (⟨fid, kv.1, .json kv.2⟩ : MetaRow))

/-- A wikilink as `store_file` inserts it. -/
def wlToRow (fid : Nat) (w : Wikilink) : WikiRow :=
  ⟨fid, w.target, w.aliasName, w.label, w.line, w.column⟩

/-- A label as `store_file` inserts it: the INSERT names only
`(file_id, name, line, column)`, so `is_implicit` is left NULL. -/
def labelToRow (fid : Nat) (l : Label) : LabelRow :=
  ⟨fid, l.name, l.line, l.column, none⟩

/-- `Index::store_file`.  The filesystem timestamps and the wall clock are
inputs (`createdAt`, `modifiedAt`, `now`).  Scope is checked first; then,
in one transaction: `INSERT OR REPLACE` into `files` — the new rowid is
`maxFileId db.files + 1`, computed over the table before the conflicting
row is deleted, so a re-stored path always receives a fresh id and the old
row's related rows stay orphaned — then delete the related rows keyed by
the new id and insert the parsed file's rows. -/
def storeFile (root : List String) (db : DbState) (absPath : List String)
    (createdAt modifiedAt : Option Int) (now : Int) (p : ParsedFile) :
    Except IndexError DbState :=
  match stripRoot root absPath with
  | none => .error .outOfScope
  | some rel =>
    let remaining := db.files.filter fun f => f.path ≠ rel
    let fid := maxFileId db.files + 1
    .ok ⟨remaining ++ [⟨fid, rel, createdAt, modifiedAt, now⟩],
         db.metadata.filter (fun r => r.fileId ≠ fid) ++ metaRowsOf fid p.metadata,
         db.wikilinks.filter (fun r => r.fileId ≠ fid) ++ p.wikilinks.map (wlToRow fid),
         db.labels.filter (fun r => r.fileId ≠ fid) ++ p.labels.map (labelToRow fid)⟩

/-- `SELECT id FROM files WHERE path = ?` via `query_row` (first row). -/
def findFileId (db : DbState) (rel : List String) : Option Nat :=
  (db.files.find? fun f => f.path = rel).map (·.id)

/-- One `metadata` row folded back, exactly as `get_file`'s loop does: the
reserved keys set title / push tags / push alias from the row text; any
other key parses the text as JSON into `custom` (the parse succeeds exactly
on the serialized custom values; see `DbValue`). -/
def getFileMetaStep (m : Metadata) (r : MetaRow) : Metadata :=
  if r.key = "title" then ⟨some r.value.asText, m.tags, m.aliasName, m.custom⟩
  else if r.key = "tags" then ⟨m.title, m.tags ++ [r.value.asText], m.aliasName, m.custom⟩
  else if r.key = "alias" then ⟨m.title, m.tags, m.aliasName ++ [r.value.asText], m.custom⟩
  else
    match r.value with
    | .json j => ⟨m.title, m.tags, m.aliasName, insertCustom m.custom r.key j⟩
    | .str _ => m

/-- A wikilink read back from its row. -/
def rowToWL (r : WikiRow) : Wikilink :=
  ⟨r.target, r.aliasName, r.label, r.line, r.column⟩

/-- A label read back from its row: `get_file` selects only
`name, line, column` — `is_implicit` is not read (the struct in
`parser/models.rs` lacks the field), modelled as `false`. -/
def rowToLabel (r : LabelRow) : Label :=
  ⟨r.name, r.line, r.column, false⟩

/-- `Index::get_file`. -/
def getFile (root : List String) (db : DbState) (absPath : List String) :
    Except IndexError (Option ParsedFile) :=
  match stripRoot root absPath with
  | none => .error .outOfScope
  | some rel =>
    match findFileId db rel with
    | none => .ok none
    | some fid =>
      .ok (some ⟨absPath,
        ((db.metadata.filter fun r => r.fileId = fid).foldl getFileMetaStep Metadata.defaultVal),
        (db.wikilinks.filter fun r => r.fileId = fid).map rowToWL,
        (db.labels.filter fun r => r.fileId = fid).map rowToLabel⟩)

/-- `Index::get_forward_links`. -/
def getForwardLinks (root : List String) (db : DbState) (absPath : List String) :
    Except IndexError (List Wikilink) :=
  match stripRoot root absPath with
  | none => .error .outOfScope
  | some rel =>
    match findFileId db rel with
    | none => .ok []
    | some fid => .ok ((db.wikilinks.filter fun r => r.fileId = fid).map rowToWL)

/-- `Index::get_backward_links`: no scope check — only the file stem of the
target is used; the JOIN with `files` pairs each matching wikilink row with
the absolute (root-joined) path of its owning file, dropping orphaned
rows. -/
def getBackwardLinks (root : List String) (db : DbState) (targetPath : List String) :
    Except IndexError (List (List String × Wikilink)) :=
  match fileStem targetPath with
  | none => .error .invalidFileName
  | some stem =>
    .ok ((db.wikilinks.filter fun w => w.target = stem).flatMap fun w =>
      (db.files.filter fun f => f.id = w.fileId).map fun f =>
        (root ++ f.path, rowToWL w))

/-- `Index::remove_file`: delete the `files` row(s) with the path; related
rows are left orphaned. -/
def removeFile (root : List String) (db : DbState) (absPath : List String) :
    Except IndexError DbState :=
  match stripRoot root absPath with
  | none => .error .outOfScope
  | some rel => .ok ⟨db.files.filter (fun f => f.path ≠ rel), db.metadata, db.wikilinks, db.labels⟩

/-- A store/query call against the index, for stating properties of whole
operation sequences. -/
inductive Op where
  | store (absPath : List String) (createdAt modifiedAt : Option Int) (now : Int) (p : ParsedFile) : Op
  | remove (absPath : List String) : Op

/-- Execute one operation; a failed call leaves the store unchanged (the
error goes to the caller). -/
def execOp (root : List String) (db : DbState) : Op → DbState
  | .store absPath c m now p => ((storeFile root db absPath c m now p).toOption).getD db
  | .remove absPath => ((removeFile root db absPath).toOption).getD db

/-- Execute a sequence of operations. -/
def execOps (root : List String) (db : DbState) : List Op → DbState
  | [] => db
  | op :: ops => execOps root (execOp root db op) ops

/-- Whether an operation (re-)stores the relative path `rel`. -/
def storesRel (root : List String) (rel : List String) : Op → Prop
  | .store absPath _ _ _ _ => stripRoot root absPath = some rel
  | .remove _ => False

instance (root rel : List String) (op : Op) : Decidable (storesRel root rel op) := by
  cases op <;> simp only [storesRel] <;> infer_instance

/-! ## Fixture values for the concrete theorems -/

/-- A label read back through the store loses its implicit flag. -/
def forgetImplicit (l : Label) : Label := ⟨l.name, l.line, l.column, false⟩

/-- The metadata reconstructed by `get_file` from the rows `store_file`
writes (the fold never looks at the file id). -/
def readBackMeta (md : Metadata) : Metadata :=
  (metaRowsOf 0 md).foldl getFileMetaStep Metadata.defaultVal

/-- A parsed file whose custom map uses the reserved key `"title"` and whose
single label is implicit. -/
def pfC1 : ParsedFile := ⟨["a"], ⟨none, [], [], [("title", Json.str "x")]⟩, [], [⟨"h", 1, 1, true⟩]⟩

/-- A parsed file for path `a` with one wikilink. -/
def pfA : ParsedFile := ⟨["a"], Metadata.defaultVal, [⟨"x", none, none, 1, 1⟩], []⟩

/-- A parsed file for path `b` with no rows. -/
def pfB : ParsedFile := ⟨["b"], Metadata.defaultVal, [], []⟩

/-- A parsed file under root `ws` linking to `b`. -/
def pfWs : ParsedFile := ⟨["ws", "a.typ"], Metadata.defaultVal, [⟨"b", none, none, 1, 1⟩], []⟩

/-- A parsed file with one implicit label. -/
def pfC5 : ParsedFile := ⟨["a"], Metadata.defaultVal, [], [⟨"h", 2, 3, true⟩]⟩

/-- First store's state in the two-store witness scenario. -/
def dbW1 : DbState := ⟨[⟨1, ["a"], none, none, 0⟩], [], [], []⟩

/-- State after storing `pfA` at path `a` into the empty store. -/
def dbW2 : DbState := ⟨[⟨1, ["a"], none, none, 0⟩], [], [⟨1, "x", none, none, 1, 1⟩], []⟩

/-- State after re-storing path `a` (now `pfA`) over `dbW1`: the replacing
row receives the fresh id 2, not the replaced row's id 1. -/
def dbW3 : DbState := ⟨[⟨2, ["a"], none, none, 0⟩], [], [⟨2, "x", none, none, 1, 1⟩], []⟩

/-! # Theorems -/

theorem data_asString (l : List Char) : (l.asString).data = l := rfl

theorem matchWikilink_sound {cs : List Char} {t : String} {lab al : Option String} {rest : List Char}
    (h : matchWikilink cs = some ((t, lab, al), rest)) :
    cs = renderWL t lab al ++ rest ∧ t.data ≠ [] ∧ (∀ c ∈ t.data, wlTargetChar c = true) ∧
      (∀ s, lab = some s → s.data ≠ [] ∧ ∀ c ∈ s.data, wlTextChar c = true) ∧
      (∀ s, al = some s → s.data ≠ [] ∧ ∀ c ∈ s.data, wlTextChar c = true) := by
  unfold matchWikilink at h
  split at h
  case _ rest0 =>
    dsimp only at h
    have hmemT : ∀ c ∈ List.takeWhile wlTargetChar rest0, wlTargetChar c = true :=
      fun _ hc => List.mem_takeWhile_imp hc
    have hs0 := List.takeWhile_append_dropWhile wlTargetChar rest0
    generalize hTW : List.takeWhile wlTargetChar rest0 = tw at h hmemT hs0
    generalize hDW : List.dropWhile wlTargetChar rest0 = dw at h hs0
    subst hs0
    split at h
    · exact absurd h (by simp)
    case _ htgt =>
      rw [List.isEmpty_iff] at htgt
      split at h
      case _ r2 =>
        have hmemL : ∀ c ∈ List.takeWhile wlTextChar r2, wlTextChar c = true :=
          fun _ hc => List.mem_takeWhile_imp hc
        have hs2 := List.takeWhile_append_dropWhile wlTextChar r2
        generalize hLW : List.takeWhile wlTextChar r2 = lw at h hmemL hs2
        generalize hLD : List.dropWhile wlTextChar r2 = ld at h hs2
        subst hs2
        split at h
        · exact absurd h (by simp)
        case _ hlab =>
          rw [List.isEmpty_iff] at hlab
          split at h
          case _ r4 =>
            have hmemA : ∀ c ∈ List.takeWhile wlTextChar r4, wlTextChar c = true :=
              fun _ hc => List.mem_takeWhile_imp hc
            have hs4 := List.takeWhile_append_dropWhile wlTextChar r4
            generalize hAW : List.takeWhile wlTextChar r4 = aw at h hmemA hs4
            generalize hAD : List.dropWhile wlTextChar r4 = ad at h hs4
            subst hs4
            split at h
            · exact absurd h (by simp)
            case _ hal =>
              rw [List.isEmpty_iff] at hal
              split at h
              case _ r6 =>
                simp only [Option.some.injEq, Prod.mk.injEq] at h
                obtain ⟨⟨h1, h2, h3⟩, h4⟩ := h
                subst h1; subst h2; subst h3; subst h4
                refine ⟨by simp [renderWL, data_asString], by simpa [data_asString] using htgt,
                  by simpa [data_asString] using hmemT, ?_, ?_⟩
                · rintro s hs
                  injection hs with hs; subst hs
                  exact ⟨by simpa [data_asString] using hlab, by simpa [data_asString] using hmemL⟩
                · rintro s hs
                  injection hs with hs; subst hs
                  exact ⟨by simpa [data_asString] using hal, by simpa [data_asString] using hmemA⟩
              all_goals exact absurd h (by simp)
          case _ r4 =>
            simp only [Option.some.injEq, Prod.mk.injEq] at h
            obtain ⟨⟨h1, h2, h3⟩, h4⟩ := h
            subst h1; subst h2; subst h3; subst h4
            refine ⟨by simp [renderWL, data_asString], by simpa [data_asString] using htgt,
              by simpa [data_asString] using hmemT, ?_, by rintro s ⟨⟩⟩
            rintro s hs
            injection hs with hs; subst hs
            exact ⟨by simpa [data_asString] using hlab, by simpa [data_asString] using hmemL⟩
          all_goals exact absurd h (by simp)
      case _ r2 =>
        have hmemA : ∀ c ∈ List.takeWhile wlTextChar r2, wlTextChar c = true :=
          fun _ hc => List.mem_takeWhile_imp hc
        have hs2 := List.takeWhile_append_dropWhile wlTextChar r2
        generalize hAW : List.takeWhile wlTextChar r2 = aw at h hmemA hs2
        generalize hAD : List.dropWhile wlTextChar r2 = ad at h hs2
        subst hs2
        split at h
        · exact absurd h (by simp)
        case _ hal =>
          rw [List.isEmpty_iff] at hal
          split at h
          case _ r4 =>
            simp only [Option.some.injEq, Prod.mk.injEq] at h
            obtain ⟨⟨h1, h2, h3⟩, h4⟩ := h
            subst h1; subst h2; subst h3; subst h4
            refine ⟨by simp [renderWL, data_asString], by simpa [data_asString] using htgt,
              by simpa [data_asString] using hmemT, by rintro s ⟨⟩, ?_⟩
            rintro s hs
            injection hs with hs; subst hs
            exact ⟨by simpa [data_asString] using hal, by simpa [data_asString] using hmemA⟩
          all_goals exact absurd h (by simp)
      case _ r2 =>
        simp only [Option.some.injEq, Prod.mk.injEq] at h
        obtain ⟨⟨h1, h2, h3⟩, h4⟩ := h
        subst h1; subst h2; subst h3; subst h4
        exact ⟨by simp [renderWL, data_asString], by simpa [data_asString] using htgt,
          by simpa [data_asString] using hmemT, by rintro s ⟨⟩, by rintro s ⟨⟩⟩
      all_goals exact absurd h (by simp)
  all_goals exact absurd h (by simp)

theorem scanWLAux_succ (n k pos : Nat) (cs : List Char) :
    scanWLAux n (k + 1) pos cs =
      match matchWikilink cs with
      | some ((t, lab, al), rest) =>
        ⟨t, al, lab, n, pos + 1⟩ :: scanWLAux n k (pos + (cs.length - rest.length)) rest
      | none =>
        match cs with
        | [] => []
        | _ :: r => scanWLAux n k (pos + 1) r := rfl

theorem matchWikilink_rest_lt {cs : List Char} {d : String × Option String × Option String}
    {rest : List Char} (h : matchWikilink cs = some (d, rest)) : rest.length < cs.length := by
  obtain ⟨t, lab, al⟩ := d
  have hs := (matchWikilink_sound h).1
  have : (renderWL t lab al).length + rest.length = cs.length := by
    rw [hs, List.length_append]
  have hr : 0 < (renderWL t lab al).length := by simp [renderWL]
  omega

theorem matchWikilink_consumed {cs : List Char} {t : String} {lab al : Option String}
    {rest : List Char} (h : matchWikilink cs = some ((t, lab, al), rest)) :
    cs.length - rest.length = (renderWL t lab al).length := by
  have hs := (matchWikilink_sound h).1
  have : cs.length = (renderWL t lab al).length + rest.length := by
    rw [hs, List.length_append]
  omega

theorem scanWLAux_line {n : Nat} : ∀ {k pos : Nat} {cs : List Char} {w : Wikilink},
    w ∈ scanWLAux n k pos cs → w.line = n := by
  intro k
  induction k with
  | zero => intro pos cs w hw; simp [scanWLAux] at hw
  | succ k ih =>
    intro pos cs w hw
    rw [scanWLAux_succ] at hw
    split at hw
    case _ t lab al rest heq =>
      rcases List.mem_cons.mp hw with h | h
      · subst h; rfl
      · exact ih h
    case _ =>
      match cs, hw with
      | [], hw => simp at hw
      | _ :: r, hw => exact ih hw

theorem scanWLAux_col_lb {n : Nat} : ∀ {k pos : Nat} {cs : List Char} {w : Wikilink},
    w ∈ scanWLAux n k pos cs → pos + 1 ≤ w.column := by
  intro k
  induction k with
  | zero => intro pos cs w hw; simp [scanWLAux] at hw
  | succ k ih =>
    intro pos cs w hw
    rw [scanWLAux_succ] at hw
    split at hw
    case _ t lab al rest heq =>
      rcases List.mem_cons.mp hw with h | h
      · subst h; simp
      · have := ih h; omega
    case _ =>
      match cs, hw with
      | [], hw => simp at hw
      | _ :: r, hw => have := ih hw; omega

theorem scanWLAux_sound {n : Nat} : ∀ {k pos : Nat} {cs : List Char} {w : Wikilink},
    w ∈ scanWLAux n k pos cs →
    ∃ pre rest, cs = pre ++ renderWL w.target w.label w.aliasName ++ rest ∧
      w.column = pos + pre.length + 1 ∧
      w.target.data ≠ [] ∧ (∀ c ∈ w.target.data, wlTargetChar c = true) ∧
      (∀ s, w.label = some s → s.data ≠ [] ∧ ∀ c ∈ s.data, wlTextChar c = true) ∧
      (∀ s, w.aliasName = some s → s.data ≠ [] ∧ ∀ c ∈ s.data, wlTextChar c = true) := by
  intro k
  induction k with
  | zero => intro pos cs w hw; simp [scanWLAux] at hw
  | succ k ih =>
    intro pos cs w hw
    rw [scanWLAux_succ] at hw
    split at hw
    case _ t lab al rest heq =>
      obtain ⟨hcs, hne, hmem, hlab, hal⟩ := matchWikilink_sound heq
      rcases List.mem_cons.mp hw with h | h
      · subst h
        exact ⟨[], rest, by simpa using hcs, by simp, hne, hmem, hlab, hal⟩
      · obtain ⟨pre, rest', hr, hcol, hx⟩ := ih h
        refine ⟨renderWL t lab al ++ pre, rest', ?_, ?_, hx⟩
        · rw [hcs, hr]; simp [List.append_assoc]
        · rw [hcol, List.length_append, matchWikilink_consumed heq]; ring
    case _ =>
      match cs, hw with
      | [], hw => simp at hw
      | c :: r, hw =>
        obtain ⟨pre, rest', hr, hcol, hx⟩ := ih hw
        exact ⟨c :: pre, rest', by rw [hr]; simp, by rw [hcol]; simp; ring, hx⟩

theorem scanWLAux_pairwise {n : Nat} : ∀ {k pos : Nat} {cs : List Char},
    (scanWLAux n k pos cs).Pairwise fun w1 w2 =>
      w1.column + (renderWL w1.target w1.label w1.aliasName).length ≤ w2.column := by
  intro k
  induction k with
  | zero => intro pos cs; simp [scanWLAux]
  | succ k ih =>
    intro pos cs
    rw [scanWLAux_succ]
    split
    case _ t lab al rest heq =>
      refine List.Pairwise.cons ?_ ih
      intro w2 hw2
      have hlb := scanWLAux_col_lb hw2
      have hcons := matchWikilink_consumed heq
      simp only []
      omega
    case _ =>
      match cs with
      | [] => exact List.Pairwise.nil
      | _ :: r => exact ih

theorem scanWLLines_mem {w : Wikilink} : ∀ {i : Nat} {ls : List (List Char)},
    w ∈ scanWLLines i ls →
    ∃ j l, ls[j]? = some l ∧ w.line = i + j ∧ w ∈ scanWLAux w.line l.length 0 l := by
  intro i ls
  induction ls generalizing i with
  | nil => intro hw; simp [scanWLLines] at hw
  | cons l ls ih =>
    intro hw
    rw [scanWLLines] at hw
    rcases List.mem_append.mp hw with h | h
    · have hline := scanWLAux_line h
      exact ⟨0, l, by simp, by omega, by rw [hline]; exact h⟩
    · obtain ⟨j, l', hget, hline, hmem⟩ := ih h
      exact ⟨j + 1, l', by simpa using hget, by omega, hmem⟩

theorem scanWLLines_line_lb {w : Wikilink} : ∀ {i : Nat} {ls : List (List Char)},
    w ∈ scanWLLines i ls → i ≤ w.line := by
  intro i ls
  induction ls generalizing i with
  | nil => intro hw; simp [scanWLLines] at hw
  | cons l ls ih =>
    intro hw
    rw [scanWLLines] at hw
    rcases List.mem_append.mp hw with h | h
    · rw [scanWLAux_line h]
    · have := ih h; omega

theorem scanWLLines_pairwise : ∀ (i : Nat) (ls : List (List Char)),
    (scanWLLines i ls).Pairwise fun w1 w2 =>
      w1.line < w2.line ∨ (w1.line = w2.line ∧
        w1.column + (renderWL w1.target w1.label w1.aliasName).length ≤ w2.column) := by
  intro i ls
  induction ls generalizing i with
  | nil => simp [scanWLLines]
  | cons l ls ih =>
    rw [scanWLLines, List.pairwise_append]
    refine ⟨?_, ih (i + 1), ?_⟩
    · have hp := @scanWLAux_pairwise i l.length 0 l
      refine List.Pairwise.imp_of_mem ?_ hp
      intro w1 w2 h1 h2 hcol
      exact Or.inr ⟨by rw [scanWLAux_line h1, scanWLAux_line h2], hcol⟩
    · intro w1 h1 w2 h2
      left
      have e1 := scanWLAux_line h1
      have e2 := scanWLLines_line_lb h2
      omega

theorem parseWikilinks_mem {content : String} {w : Wikilink}
    (hw : w ∈ parseWikilinks content) :
    1 ≤ w.line ∧
    ∃ l pre rest, (rustLines content.data)[w.line - 1]? = some l ∧
      l = pre ++ renderWL w.target w.label w.aliasName ++ rest ∧
      w.column = pre.length + 1 ∧
      w.target.data ≠ [] ∧ (∀ c ∈ w.target.data, wlTargetChar c = true) ∧
      (∀ s, w.label = some s → s.data ≠ [] ∧ ∀ c ∈ s.data, wlTextChar c = true) ∧
      (∀ s, w.aliasName = some s → s.data ≠ [] ∧ ∀ c ∈ s.data, wlTextChar c = true) := by
  obtain ⟨j, l, hget, hline, hmem⟩ := scanWLLines_mem hw
  obtain ⟨pre, rest, hdec, hcol, hx⟩ := scanWLAux_sound hmem
  refine ⟨by omega, l, pre, rest, ?_, hdec, by omega, hx⟩
  rw [show w.line - 1 = j by omega]
  exact hget

/-- Claim C6: for every input text `parse_wikilinks` returns a (possibly empty)
ordered list and never errors; per line, left to right and non-overlapping,
every emitted record reconstructs at its reported position as one of the four
forms `[[target]]`, `[[target|alias]]`, `[[target:label]]`,
`[[target:label|alias]]` with the stated character exclusions; and
`"[[file:section|Section 1]]"` yields exactly one wikilink with target
`file`, label `section`, alias `Section 1`.  (Totality is by construction:
`parseWikilinks` is a total function into lists.) -/
theorem C6_wikilink_grammar_total :
    (∀ (content : String), ∀ w ∈ parseWikilinks content,
      1 ≤ w.line ∧
      ∃ l pre rest, (rustLines content.data)[w.line - 1]? = some l ∧
        l = pre ++ renderWL w.target w.label w.aliasName ++ rest ∧
        w.column = pre.length + 1 ∧
        w.target.data ≠ [] ∧ (∀ c ∈ w.target.data, wlTargetChar c = true) ∧
        (∀ s, w.label = some s → s.data ≠ [] ∧ ∀ c ∈ s.data, wlTextChar c = true) ∧
        (∀ s, w.aliasName = some s → s.data ≠ [] ∧ ∀ c ∈ s.data, wlTextChar c = true)) ∧
    (∀ content : String, (parseWikilinks content).Pairwise fun w1 w2 =>
      w1.line < w2.line ∨ (w1.line = w2.line ∧
        w1.column + (renderWL w1.target w1.label w1.aliasName).length ≤ w2.column)) ∧
    parseWikilinks "[[file:section|Section 1]]" =
      [⟨"file", some "Section 1", some "section", 1, 1⟩] := by
  refine ⟨fun content w hw => parseWikilinks_mem hw, fun content => scanWLLines_pairwise 1 _, ?_⟩
  decide

/-- Witness for C6 at the input `"x [[a]]"`. -/
theorem C6_witness :
    1 ≤ (⟨"a", none, none, 1, 3⟩ : Wikilink).line ∧
    ∃ l pre rest,
      (rustLines ("x [[a]]".data))[(⟨"a", none, none, 1, 3⟩ : Wikilink).line - 1]? = some l ∧
      l = pre ++ renderWL "a" none none ++ rest ∧
      (⟨"a", none, none, 1, 3⟩ : Wikilink).column = pre.length + 1 ∧
      ("a" : String).data ≠ [] ∧ (∀ c ∈ ("a" : String).data, wlTargetChar c = true) ∧
      (∀ s, (none : Option String) = some s → s.data ≠ [] ∧ ∀ c ∈ s.data, wlTextChar c = true) ∧
      (∀ s, (none : Option String) = some s → s.data ≠ [] ∧ ∀ c ∈ s.data, wlTextChar c = true) :=
  C6_wikilink_grammar_total.1 "x [[a]]" ⟨"a", none, none, 1, 3⟩ (by decide)

theorem matchLabelTok_sound {cs : List Char} {nm : String} {rest : List Char}
    (h : matchLabelTok cs = some (nm, rest)) :
    cs = renderLabel nm ++ rest ∧ nm.data ≠ [] ∧ ∀ c ∈ nm.data, labelChar c = true := by
  unfold matchLabelTok at h
  split at h
  case _ rest0 =>
    dsimp only at h
    have hmemN : ∀ c ∈ List.takeWhile labelChar rest0, labelChar c = true :=
      fun _ hc => List.mem_takeWhile_imp hc
    have hs0 := List.takeWhile_append_dropWhile labelChar rest0
    generalize hTW : List.takeWhile labelChar rest0 = tw at h hmemN hs0
    generalize hDW : List.dropWhile labelChar rest0 = dw at h hs0
    subst hs0
    split at h
    · exact absurd h (by simp)
    case _ hne =>
      rw [List.isEmpty_iff] at hne
      split at h
      case _ r2 =>
        simp only [Option.some.injEq, Prod.mk.injEq] at h
        obtain ⟨h1, h2⟩ := h
        subst h1; subst h2
        exact ⟨by simp [renderLabel, data_asString], by simpa [data_asString] using hne,
          by simpa [data_asString] using hmemN⟩
      all_goals exact absurd h (by simp)
  all_goals exact absurd h (by simp)

theorem matchLabelTok_consumed {cs : List Char} {nm : String} {rest : List Char}
    (h : matchLabelTok cs = some (nm, rest)) :
    cs.length - rest.length = (renderLabel nm).length := by
  have hs := (matchLabelTok_sound h).1
  have : cs.length = (renderLabel nm).length + rest.length := by
    rw [hs, List.length_append]
  omega

theorem scanLabAux_succ (n k pos : Nat) (cs : List Char) :
    scanLabAux n (k + 1) pos cs =
      match matchLabelTok cs with
      | some (nm, rest) =>
        ⟨nm, n, pos + 1, false⟩ :: scanLabAux n k (pos + (cs.length - rest.length)) rest
      | none =>
        match cs with
        | [] => []
        | _ :: r => scanLabAux n k (pos + 1) r := rfl

theorem scanLabAux_line_explicit {n : Nat} : ∀ {k pos : Nat} {cs : List Char} {lb : Label},
    lb ∈ scanLabAux n k pos cs → lb.line = n ∧ lb.is_implicit = false := by
  intro k
  induction k with
  | zero => intro pos cs lb hw; simp [scanLabAux] at hw
  | succ k ih =>
    intro pos cs lb hw
    rw [scanLabAux_succ] at hw
    split at hw
    case _ nm rest heq =>
      rcases List.mem_cons.mp hw with h | h
      · subst h; exact ⟨rfl, rfl⟩
      · exact ih h
    case _ =>
      match cs, hw with
      | [], hw => simp at hw
      | _ :: r, hw => exact ih hw

theorem scanLabAux_sound {n : Nat} : ∀ {k pos : Nat} {cs : List Char} {lb : Label},
    lb ∈ scanLabAux n k pos cs →
    ∃ pre rest, cs = pre ++ renderLabel lb.name ++ rest ∧
      lb.column = pos + pre.length + 1 ∧
      lb.name.data ≠ [] ∧ (∀ c ∈ lb.name.data, labelChar c = true) := by
  intro k
  induction k with
  | zero => intro pos cs lb hw; simp [scanLabAux] at hw
  | succ k ih =>
    intro pos cs lb hw
    rw [scanLabAux_succ] at hw
    split at hw
    case _ nm rest heq =>
      obtain ⟨hcs, hne, hmem⟩ := matchLabelTok_sound heq
      rcases List.mem_cons.mp hw with h | h
      · subst h
        exact ⟨[], rest, by simpa using hcs, by simp, hne, hmem⟩
      · obtain ⟨pre, rest', hr, hcol, hx⟩ := ih h
        refine ⟨renderLabel nm ++ pre, rest', ?_, ?_, hx⟩
        · rw [hcs, hr]; simp [List.append_assoc]
        · rw [hcol, List.length_append, matchLabelTok_consumed heq]; ring
    case _ =>
      match cs, hw with
      | [], hw => simp at hw
      | c :: r, hw =>
        obtain ⟨pre, rest', hr, hcol, hx⟩ := ih hw
        exact ⟨c :: pre, rest', by rw [hr]; simp, by rw [hcol]; simp; ring, hx⟩

theorem scanLabLines_mem_explicit {lb : Label} (hexp : lb.is_implicit = false) :
    ∀ {i : Nat} {ls : List (List Char)},
    lb ∈ scanLabLines i ls →
    ∃ j l, ls[j]? = some l ∧ lb.line = i + j ∧ lb ∈ scanLabAux lb.line l.length 0 l := by
  intro i ls
  induction ls generalizing i with
  | nil => intro hw; simp [scanLabLines] at hw
  | cons l ls ih =>
    intro hw
    rw [scanLabLines] at hw
    rcases List.mem_append.mp hw with h | h
    · rw [lineLabels] at h
      rcases List.mem_append.mp h with h | h
      · have hline := (scanLabAux_line_explicit h).1
        exact ⟨0, l, by simp, by omega, by rw [hline]; exact h⟩
      · exfalso
        revert h
        split
        · intro h
          rcases List.mem_singleton.mp h with rfl
          simp at hexp
        · intro h; simp at h
    · obtain ⟨j, l', hget, hline, hmem⟩ := ih h
      exact ⟨j + 1, l', by simpa using hget, by omega, hmem⟩

theorem parseLabels_explicit_mem {content : String} {lb : Label}
    (hw : lb ∈ parseLabels content) (hexp : lb.is_implicit = false) :
    1 ≤ lb.line ∧
    ∃ l pre rest, (rustLines content.data)[lb.line - 1]? = some l ∧
      l = pre ++ renderLabel lb.name ++ rest ∧
      lb.column = pre.length + 1 ∧
      lb.name.data ≠ [] ∧ (∀ c ∈ lb.name.data, labelChar c = true) := by
  obtain ⟨j, l, hget, hline, hmem⟩ := scanLabLines_mem_explicit hexp hw
  obtain ⟨pre, rest, hdec, hcol, hx⟩ := scanLabAux_sound hmem
  refine ⟨by omega, l, pre, rest, ?_, hdec, by omega, hx⟩
  rw [show lb.line - 1 = j by omega]
  exact hget

/-- Claim C8: the column reported for each wikilink and each explicit label is
1 plus the number of characters on the line preceding the match's opening
delimiter (the embedding is character-based, matching the
`chars().count() + 1` computation of the source); `"    <label>"` yields a
label at column 5, and a line with two preceding non-ASCII characters yields
column 3, not a byte-based column. -/
theorem C8_character_columns :
    (∀ (content : String), ∀ w ∈ parseWikilinks content,
       ∃ l pre rest, (rustLines content.data)[w.line - 1]? = some l ∧
         l = pre ++ renderWL w.target w.label w.aliasName ++ rest ∧
         w.column = pre.length + 1) ∧
    (∀ (content : String), ∀ lb ∈ parseLabels content, lb.is_implicit = false →
       ∃ l pre rest, (rustLines content.data)[lb.line - 1]? = some l ∧
         l = pre ++ renderLabel lb.name ++ rest ∧
         lb.column = pre.length + 1) ∧
    parseLabels "    <label>" = [⟨"label", 1, 5, false⟩] ∧
    parseWikilinks "αα[[x]]" = [⟨"x", none, none, 1, 3⟩] := by
  refine ⟨?_, ?_, by decide, by decide⟩
  · intro content w hw
    obtain ⟨-, l, pre, rest, hget, hdec, hcol, -⟩ := parseWikilinks_mem hw
    exact ⟨l, pre, rest, hget, hdec, hcol⟩
  · intro content lb hlb hexp
    obtain ⟨-, l, pre, rest, hget, hdec, hcol, -⟩ := parseLabels_explicit_mem hlb hexp
    exact ⟨l, pre, rest, hget, hdec, hcol⟩

/-- Witness for C8 at the input `"    <label>"`. -/
theorem C8_witness :
    ∃ l pre rest,
      (rustLines ("    <label>".data))[(⟨"label", 1, 5, false⟩ : Label).line - 1]? = some l ∧
      l = pre ++ renderLabel (⟨"label", 1, 5, false⟩ : Label).name ++ rest ∧
      (⟨"label", 1, 5, false⟩ : Label).column = pre.length + 1 :=
  C8_character_columns.2.1 "    <label>" ⟨"label", 1, 5, false⟩ (by decide) rfl

theorem rowToWL_wlToRow (fid : Nat) (w : Wikilink) : rowToWL (wlToRow fid w) = w := by
  cases w; rfl

theorem rowToLabel_labelToRow (fid : Nat) (l : Label) :
    rowToLabel (labelToRow fid l) = forgetImplicit l := by
  cases l; rfl

theorem metaRowsOf_fileId {fid : Nat} {md : Metadata} :
    ∀ r ∈ metaRowsOf fid md, r.fileId = fid := by
  intro r hr
  unfold metaRowsOf at hr
  rcases List.mem_append.mp hr with hr | hr
  · rcases List.mem_append.mp hr with hr | hr
    · rcases List.mem_append.mp hr with hr | hr
      · revert hr
        cases md.title <;> intro hr <;> simp at hr
        subst hr; rfl
      · obtain ⟨t, -, rfl⟩ := List.mem_map.mp hr; rfl
    · obtain ⟨a, -, rfl⟩ := List.mem_map.mp hr; rfl
  · obtain ⟨kv, -, rfl⟩ := List.mem_map.mp hr; rfl

theorem foldl_step_setFid (rows : List MetaRow) (fid : Nat) : ∀ (m : Metadata),
    ((rows.map fun r => (⟨fid, r.key, r.value⟩ : MetaRow)).foldl getFileMetaStep m) =
      rows.foldl getFileMetaStep m := by
  induction rows with
  | nil => intro m; rfl
  | cons r rows ih =>
    intro m
    simp only [List.map_cons, List.foldl_cons]
    rw [show getFileMetaStep m ⟨fid, r.key, r.value⟩ = getFileMetaStep m r from by cases r; rfl]
    exact ih _

theorem metaRowsOf_setFid (fid : Nat) (md : Metadata) :
    metaRowsOf fid md = (metaRowsOf 0 md).map fun r => ⟨fid, r.key, r.value⟩ := by
  unfold metaRowsOf
  cases md.title <;> simp [List.map_map] <;> rfl

theorem metaRowsOf_foldl (fid : Nat) (md : Metadata) :
    (metaRowsOf fid md).foldl getFileMetaStep Metadata.defaultVal = readBackMeta md := by
  rw [metaRowsOf_setFid, foldl_step_setFid]; rfl

theorem storeFile_ok_inv {root abs : List String} {db db' : DbState} {c m : Option Int}
    {now : Int} {p : ParsedFile} (h : storeFile root db abs c m now p = .ok db') :
    ∃ rel, stripRoot root abs = some rel ∧
      db' = ⟨(db.files.filter fun f => f.path ≠ rel) ++
               [⟨maxFileId db.files + 1, rel, c, m, now⟩],
             db.metadata.filter
                 (fun r => r.fileId ≠ maxFileId db.files + 1) ++
               metaRowsOf (maxFileId db.files + 1) p.metadata,
             db.wikilinks.filter
                 (fun r => r.fileId ≠ maxFileId db.files + 1) ++
               p.wikilinks.map (wlToRow (maxFileId db.files + 1)),
             db.labels.filter
                 (fun r => r.fileId ≠ maxFileId db.files + 1) ++
               p.labels.map (labelToRow (maxFileId db.files + 1))⟩ := by
  unfold storeFile at h
  split at h
  · exact absurd h (by simp)
  case _ rel heq =>
    refine ⟨rel, heq, ?_⟩
    simp only [Except.ok.injEq] at h
    exact h.symm

theorem findFileId_new {s : DbState} {rel : List String} {fid : Nat} {c m : Option Int}
    {now : Int} {rows : List FileRow}
    (hfiles : s.files = rows ++ [⟨fid, rel, c, m, now⟩])
    (hno : ∀ f ∈ rows, f.path ≠ rel) :
    findFileId s rel = some fid := by
  unfold findFileId
  rw [hfiles, List.find?_append]
  have h1 : rows.find? (fun f => f.path = rel) = none := by
    rw [List.find?_eq_none]
    intro f hf
    simpa using hno f hf
  rw [h1]
  simp [List.find?]

theorem filter_fid_split {α : Type} (old : List α) (new : List α) (fid : α → Nat) (i : Nat)
    (hnew : ∀ x ∈ new, fid x = i) :
    (old.filter (fun x => fid x ≠ i) ++ new).filter (fun x => fid x = i) = new := by
  rw [List.filter_append]
  have e1 : (old.filter fun x => fid x ≠ i).filter (fun x => fid x = i) = [] := by
    rw [List.filter_eq_nil_iff]
    intro x hx
    have := (List.mem_filter.mp hx).2
    simp at this ⊢
    exact this
  have e2 : new.filter (fun x => fid x = i) = new :=
    List.filter_eq_self.mpr (by intro x hx; simpa using hnew x hx)
  rw [e1, e2, List.nil_append]

theorem getFile_store {root abs : List String} {db db' : DbState} {c m : Option Int}
    {now : Int} {p : ParsedFile} (h : storeFile root db abs c m now p = .ok db') :
    getFile root db' abs =
      .ok (some ⟨abs, readBackMeta p.metadata, p.wikilinks, p.labels.map forgetImplicit⟩) := by
  obtain ⟨rel, hrel, rfl⟩ := storeFile_ok_inv h
  have hno : ∀ f ∈ db.files.filter (fun f => f.path ≠ rel), f.path ≠ rel := by
    intro f hf
    simpa using (List.mem_filter.mp hf).2
  unfold getFile
  rw [hrel]
  dsimp only
  rw [findFileId_new rfl hno]
  dsimp only
  have hw := filter_fid_split (α := WikiRow) db.wikilinks
    (p.wikilinks.map (wlToRow (maxFileId db.files + 1)))
    WikiRow.fileId (maxFileId db.files + 1)
    (by intro x hx; obtain ⟨w, -, rfl⟩ := List.mem_map.mp hx; rfl)
  have hl := filter_fid_split (α := LabelRow) db.labels
    (p.labels.map (labelToRow (maxFileId db.files + 1)))
    LabelRow.fileId (maxFileId db.files + 1)
    (by intro x hx; obtain ⟨l, -, rfl⟩ := List.mem_map.mp hx; rfl)
  have hm := filter_fid_split (α := MetaRow) db.metadata
    (metaRowsOf (maxFileId db.files + 1) p.metadata)
    MetaRow.fileId (maxFileId db.files + 1)
    (by intro x hx; exact metaRowsOf_fileId x hx)
  simp only [hw, hl, hm]
  rw [metaRowsOf_foldl, List.map_map, List.map_map]
  generalize maxFileId db.files + 1 = fid
  rw [show rowToWL ∘ wlToRow fid = id from funext fun w => rowToWL_wlToRow fid w,
      List.map_id,
      show rowToLabel ∘ labelToRow fid = forgetImplicit from
        funext fun l => rowToLabel_labelToRow fid l]

theorem getForwardLinks_store {root abs : List String} {db db' : DbState} {c m : Option Int}
    {now : Int} {p : ParsedFile} (h : storeFile root db abs c m now p = .ok db') :
    getForwardLinks root db' abs = .ok p.wikilinks := by
  obtain ⟨rel, hrel, rfl⟩ := storeFile_ok_inv h
  have hno : ∀ f ∈ db.files.filter (fun f => f.path ≠ rel), f.path ≠ rel := by
    intro f hf
    simpa using (List.mem_filter.mp hf).2
  unfold getForwardLinks
  rw [hrel]
  dsimp only
  rw [findFileId_new rfl hno]
  dsimp only
  have hw := filter_fid_split (α := WikiRow) db.wikilinks
    (p.wikilinks.map (wlToRow (maxFileId db.files + 1)))
    WikiRow.fileId (maxFileId db.files + 1)
    (by intro x hx; obtain ⟨w, -, rfl⟩ := List.mem_map.mp hx; rfl)
  simp only [hw]
  rw [List.map_map]
  generalize maxFileId db.files + 1 = fid
  rw [show rowToWL ∘ wlToRow fid = id from funext fun w => rowToWL_wlToRow fid w, List.map_id]

theorem fold_tags_rows (tags : List String) : ∀ (m : Metadata),
    ((tags.map fun t => (⟨0, "tags", .str t⟩ : MetaRow)).foldl getFileMetaStep m) =
      ⟨m.title, m.tags ++ tags, m.aliasName, m.custom⟩ := by
  induction tags with
  | nil => intro m; cases m; simp
  | cons t tags ih =>
    intro m
    simp only [List.map_cons, List.foldl_cons]
    rw [show getFileMetaStep m ⟨0, "tags", .str t⟩ =
          ⟨m.title, m.tags ++ [t], m.aliasName, m.custom⟩ from rfl, ih]
    simp

theorem fold_alias_rows (xs : List String) : ∀ (m : Metadata),
    ((xs.map fun a => (⟨0, "alias", .str a⟩ : MetaRow)).foldl getFileMetaStep m) =
      ⟨m.title, m.tags, m.aliasName ++ xs, m.custom⟩ := by
  induction xs with
  | nil => intro m; cases m; simp
  | cons a xs ih =>
    intro m
    simp only [List.map_cons, List.foldl_cons]
    rw [show getFileMetaStep m ⟨0, "alias", .str a⟩ =
          ⟨m.title, m.tags, m.aliasName ++ [a], m.custom⟩ from rfl, ih]
    simp

theorem fold_custom_rows (custom : List (String × Json)) : ∀ (m : Metadata),
    (∀ kv ∈ custom, kv.1 ≠ "title" ∧ kv.1 ≠ "tags" ∧ kv.1 ≠ "alias") →
    (custom.map Prod.fst).Nodup →
    (∀ kv ∈ custom, ∀ kv' ∈ m.custom, kv.1 ≠ kv'.1) →
    ((custom.map fun kv => (⟨0, kv.1, .json kv.2⟩ : MetaRow)).foldl getFileMetaStep m) =
      ⟨m.title, m.tags, m.aliasName, m.custom ++ custom⟩ := by
  induction custom with
  | nil => intro m _ _ _; cases m; simp
  | cons kv custom ih =>
    intro m hres hnd hdisj
    obtain ⟨k, v⟩ := kv
    simp only [List.map_cons, List.foldl_cons]
    obtain ⟨hk1, hk2, hk3⟩ := hres _ (List.mem_cons_self _ _)
    have hstep : getFileMetaStep m ⟨0, k, .json v⟩ =
        ⟨m.title, m.tags, m.aliasName, m.custom ++ [(k, v)]⟩ := by
      unfold getFileMetaStep
      simp only [hk1, hk2, hk3, if_false]
      unfold insertCustom
      have hany : m.custom.any (fun kv => kv.1 = k) = false := by
        rw [List.any_eq_false]
        intro kv' hkv'
        have := hdisj (k, v) (List.mem_cons_self _ _) kv' hkv'
        simpa using fun e => this e.symm
      rw [hany]
      simp
    have hnd' : k ∉ custom.map Prod.fst ∧ (custom.map Prod.fst).Nodup := by
      rw [List.map_cons, List.nodup_cons] at hnd
      exact hnd
    rw [hstep, ih]
    · simp
    · intro kv hkv; exact hres kv (List.mem_cons_of_mem _ hkv)
    · exact hnd'.2
    · intro kv hkv kv' hkv'
      rcases List.mem_append.mp hkv' with h | h
      · exact hdisj kv (List.mem_cons_of_mem _ hkv) kv' h
      · have hkv2 : kv' = (k, v) := List.mem_singleton.mp h
        subst hkv2
        intro he
        have he' : kv.1 = k := he
        exact hnd'.1 (by rw [← he']; exact List.mem_map.mpr ⟨kv, hkv, rfl⟩)

theorem readBackMeta_eq (md : Metadata)
    (hres : ∀ kv ∈ md.custom, kv.1 ≠ "title" ∧ kv.1 ≠ "tags" ∧ kv.1 ≠ "alias")
    (hnd : (md.custom.map Prod.fst).Nodup) :
    readBackMeta md = md := by
  unfold readBackMeta metaRowsOf
  rw [List.foldl_append, List.foldl_append, List.foldl_append]
  have htitle : (match md.title with
      | some t => [(⟨0, "title", .str t⟩ : MetaRow)]
      | none => []).foldl getFileMetaStep Metadata.defaultVal =
      ⟨md.title, [], [], []⟩ := by
    cases md.title <;> rfl
  rw [htitle, fold_tags_rows, fold_alias_rows, fold_custom_rows md.custom _ hres hnd
    (by intro kv hkv kv' hkv'; simp at hkv')]
  cases md; simp

/-- Claim C1 (amended): after a successful `store(path, parsedFile)`,
`getFile(path)` returns the stored metadata (title, tags, alias, custom),
wikilinks and labels with order preserved and empty tags/alias as empty
lists, PROVIDED the custom map uses none of the reserved keys `title`,
`tags`, `alias` (its keys are distinct, as a `HashMap` guarantees) and all
labels are explicit.  A reserved custom key leaks into title/tags/alias on
read, and an implicit label comes back with `is_implicit = false`, because
the store never persists the flag. -/
theorem C1_round_trip_amended {root abs : List String} {db db' : DbState}
    {c m : Option Int} {now : Int} {p : ParsedFile}
    (h : storeFile root db abs c m now p = .ok db')
    (hres : ∀ kv ∈ p.metadata.custom, kv.1 ≠ "title" ∧ kv.1 ≠ "tags" ∧ kv.1 ≠ "alias")
    (hnd : (p.metadata.custom.map Prod.fst).Nodup)
    (hexp : ∀ l ∈ p.labels, l.is_implicit = false) :
    getFile root db' abs = .ok (some ⟨abs, p.metadata, p.wikilinks, p.labels⟩) := by
  rw [getFile_store h, readBackMeta_eq p.metadata hres hnd]
  have hlab : p.labels.map forgetImplicit = p.labels := by
    conv_rhs => rw [← List.map_id p.labels]
    refine List.map_congr_left fun l hl => ?_
    have hli := hexp l hl
    cases l
    simp only at hli
    simp only [forgetImplicit, id_eq]
    rw [hli]
  rw [hlab]

/-- Witness for C1 at a store of `pfA` into the empty store. -/
theorem C1_witness :
    storeFile [] emptyDb ["a"] none none 0 pfA = .ok dbW2 ∧
    getFile [] dbW2 ["a"] =
      .ok (some ⟨["a"], pfA.metadata, pfA.wikilinks, pfA.labels⟩) := by
  have hst : storeFile [] emptyDb ["a"] none none 0 pfA = .ok dbW2 := rfl
  exact ⟨hst, C1_round_trip_amended hst
    (by simp [pfA, Metadata.defaultVal])
    (by simp [pfA, Metadata.defaultVal])
    (by simp [pfA])⟩

/-- Counterexample to C1 as stated: storing `pfC1` (custom key `title`, one
implicit label) and reading it back yields a title `some "\"x\""` where the
original had none, an empty custom map where the original had one entry, and
a label with `is_implicit = false` where the original had `true`. -/
theorem C1_counterexample :
    (storeFile [] emptyDb ["a"] none none 0 pfC1).bind (fun d => getFile [] d ["a"]) =
      .ok (some ⟨["a"], ⟨some "\"x\"", [], [], []⟩, [], [⟨"h", 1, 1, false⟩]⟩) ∧
    pfC1.metadata.title = none ∧
    pfC1.metadata.custom = [("title", Json.str "x")] ∧
    pfC1.labels = [⟨"h", 1, 1, true⟩] :=
  ⟨rfl, rfl, rfl, rfl⟩

/-- Every id in the `files` table is at most `maxFileId`, so the next
inserted row's id `maxFileId + 1` is fresh. -/
theorem le_maxFileId : ∀ {files : List FileRow} {f : FileRow},
    f ∈ files → f.id ≤ maxFileId files := by
  intro files
  induction files with
  | nil => intro f h; simp at h
  | cons g files ih =>
    intro f h
    unfold maxFileId at *
    rw [List.foldr_cons]
    rcases List.mem_cons.mp h with rfl | h
    · omega
    · have := ih h; omega

/-- Claim C2 (amended): after two successful stores of the same path,
`getForwardLinks` returns exactly the second store's wikilinks and `getFile`
reflects only the second store's metadata/wikilinks/labels (replaced, never
appended); the `files` row for the path is replaced by `INSERT OR REPLACE`
with a single new row whose id — computed before the conflicting row is
deleted — is one more than the largest id present, so it differs from every
id in the prior state: the row never keeps its identity across a re-store. -/
theorem C2_replacement_amended {root abs : List String} {db db1 db2 : DbState}
    {c1 m1 : Option Int} {t1 : Int} {c2 m2 : Option Int} {t2 : Int} {p1 p2 : ParsedFile}
    (h1 : storeFile root db abs c1 m1 t1 p1 = .ok db1)
    (h2 : storeFile root db1 abs c2 m2 t2 p2 = .ok db2) :
    getForwardLinks root db2 abs = .ok p2.wikilinks ∧
    getFile root db2 abs =
      .ok (some ⟨abs, readBackMeta p2.metadata, p2.wikilinks, p2.labels.map forgetImplicit⟩) ∧
    ∃ rel, stripRoot root abs = some rel ∧
      db2.files.filter (fun f => f.path = rel) =
        [⟨maxFileId db1.files + 1, rel, c2, m2, t2⟩] ∧
      ∀ f ∈ db1.files, f.id ≠ maxFileId db1.files + 1 := by
  refine ⟨getForwardLinks_store h2, getFile_store h2, ?_⟩
  obtain ⟨rel, hrel, rfl⟩ := storeFile_ok_inv h2
  refine ⟨rel, hrel, ?_, ?_⟩
  · rw [List.filter_append]
    have e1 : (db1.files.filter fun f => f.path ≠ rel).filter (fun f => f.path = rel) = [] := by
      rw [List.filter_eq_nil_iff]
      intro f hf
      have := (List.mem_filter.mp hf).2
      simp at this ⊢
      exact this
    rw [e1, List.nil_append]
    simp
  · intro f hf
    have := le_maxFileId hf
    omega

/-- Witness for C2: store `pfB` then `pfA` at path `a` in the empty store;
the re-stored row carries the fresh id 2, distinct from the replaced row's
id 1. -/
theorem C2_witness :
    getForwardLinks [] dbW3 ["a"] = .ok pfA.wikilinks ∧
    getFile [] dbW3 ["a"] =
      .ok (some ⟨["a"], readBackMeta pfA.metadata, pfA.wikilinks,
        pfA.labels.map forgetImplicit⟩) ∧
    ∃ rel, stripRoot [] ["a"] = some rel ∧
      dbW3.files.filter (fun f => f.path = rel) =
        [⟨maxFileId dbW1.files + 1, rel, none, none, 0⟩] ∧
      ∀ f ∈ dbW1.files, f.id ≠ maxFileId dbW1.files + 1 := by
  have h1 : storeFile [] emptyDb ["a"] none none 0 pfB = .ok dbW1 := rfl
  have h2 : storeFile [] dbW1 ["a"] none none 0 pfA = .ok dbW3 := rfl
  exact C2_replacement_amended h1 h2

/-- Counterexample to C2 as stated: storing `a`, then `b`, then `a` again
leaves the `a` row with id 3, not its original id 1 — the row's identity is
not kept across the re-store. -/
theorem C2_counterexample :
    ((storeFile [] emptyDb ["a"] none none 0 pfA).bind fun d =>
      (storeFile [] d ["b"] none none 0 pfB).bind fun d2 =>
        storeFile [] d2 ["a"] none none 0 pfA).map
        (fun d => d.files.map fun f => (f.id, f.path)) =
      .ok [(2, ["b"]), (3, ["a"])] ∧
    (storeFile [] emptyDb ["a"] none none 0 pfA).map
        (fun d => d.files.map fun f => (f.id, f.path)) =
      .ok [(1, ["a"])] :=
  ⟨rfl, rfl⟩

theorem getBackwardLinks_mem_iff {root : List String} {db : DbState} {t : List String}
    {stem : String} {res : List (List String × Wikilink)}
    (hstem : fileStem t = some stem) (h : getBackwardLinks root db t = .ok res) :
    ∀ pr, pr ∈ res ↔ ∃ r ∈ db.wikilinks, ∃ f ∈ db.files,
      r.target = stem ∧ f.id = r.fileId ∧ pr = (root ++ f.path, rowToWL r) := by
  unfold getBackwardLinks at h
  rw [hstem] at h
  simp only [Except.ok.injEq] at h
  subst h
  intro pr
  constructor
  · intro hpr
    obtain ⟨w, hw, hpr⟩ := List.mem_flatMap.mp hpr
    obtain ⟨hw1, hw2⟩ := List.mem_filter.mp hw
    obtain ⟨f, hf, hpr⟩ := List.mem_map.mp hpr
    obtain ⟨hf1, hf2⟩ := List.mem_filter.mp hf
    exact ⟨w, hw1, f, hf1, by simpa using hw2, by simpa using hf2, hpr.symm⟩
  · rintro ⟨r, hr, f, hf, ht, hid, rfl⟩
    refine List.mem_flatMap.mpr ⟨r, List.mem_filter.mpr ⟨hr, by simpa using ht⟩, ?_⟩
    exact List.mem_map.mpr ⟨f, List.mem_filter.mpr ⟨hf, by simpa using hid⟩, rfl⟩

theorem removeFile_ok_inv {root abs : List String} {db db' : DbState}
    (h : removeFile root db abs = .ok db') :
    ∃ rel, stripRoot root abs = some rel ∧
      db' = ⟨db.files.filter (fun f => f.path ≠ rel), db.metadata, db.wikilinks, db.labels⟩ := by
  unfold removeFile at h
  split at h
  · exact absurd h (by simp)
  case _ rel heq =>
    simp only [Except.ok.injEq] at h
    exact ⟨rel, heq, h.symm⟩

theorem execOps_no_rel {root rel : List String} : ∀ (ops : List Op) (db : DbState),
    (∀ f ∈ db.files, f.path ≠ rel) →
    (∀ op ∈ ops, ¬ storesRel root rel op) →
    ∀ f ∈ (execOps root db ops).files, f.path ≠ rel := by
  intro ops
  induction ops with
  | nil => intro db hdb _ f hf; exact hdb f hf
  | cons op ops ih =>
    intro db hdb hops
    rw [execOps]
    refine ih _ ?_ (fun o ho => hops o (List.mem_cons_of_mem _ ho))
    intro f hf
    cases op with
    | store abs c m now p =>
      rw [execOp] at hf
      cases hs : storeFile root db abs c m now p with
      | error e => rw [hs] at hf; exact hdb f hf
      | ok db2 =>
        rw [hs] at hf
        simp only [Except.toOption, Option.getD] at hf
        obtain ⟨rel', hrel', rfl⟩ := storeFile_ok_inv hs
        rcases List.mem_append.mp hf with hf | hf
        · exact hdb f (List.mem_filter.mp hf).1
        · have hne : rel' ≠ rel := by
            intro he
            exact hops _ (List.mem_cons_self _ _) (by rw [storesRel, hrel', he])
          rcases List.mem_singleton.mp hf with rfl
          exact hne
    | remove abs =>
      rw [execOp] at hf
      cases hs : removeFile root db abs with
      | error e => rw [hs] at hf; exact hdb f hf
      | ok db2 =>
        rw [hs] at hf
        simp only [Except.toOption, Option.getD] at hf
        obtain ⟨rel', hrel', rfl⟩ := removeFile_ok_inv hs
        exact hdb f (List.mem_filter.mp hf).1

/-- Claim C3: `getBackwardLinks(targetPath)` fails with the invalid-file-name
error when `targetPath` has no extractable stem; otherwise its result
contains exactly the stored wikilinks, over the currently indexed files,
whose target equals the stem, each paired with the root-joined absolute path
of the owning file; and after a successful `remove(path)`, no backward-link
result of any subsequent operation sequence (that does not re-store the
path) mentions that path as a source. -/
theorem C3_backward_links :
    (∀ (root : List String) (db : DbState) (t : List String),
       fileStem t = none → getBackwardLinks root db t = .error .invalidFileName) ∧
    (∀ (root : List String) (db : DbState) (t : List String) (stem : String)
        (res : List (List String × Wikilink)),
       fileStem t = some stem → getBackwardLinks root db t = .ok res →
       ∀ pr, pr ∈ res ↔ ∃ r ∈ db.wikilinks, ∃ f ∈ db.files,
         r.target = stem ∧ f.id = r.fileId ∧ pr = (root ++ f.path, rowToWL r)) ∧
    (∀ (root abs rel : List String) (db db' : DbState) (ops : List Op) (t : List String)
        (stem : String) (res : List (List String × Wikilink)),
       stripRoot root abs = some rel →
       removeFile root db abs = .ok db' →
       (∀ op ∈ ops, ¬ storesRel root rel op) →
       fileStem t = some stem →
       getBackwardLinks root (execOps root db' ops) t = .ok res →
       ∀ pr ∈ res, pr.1 ≠ root ++ rel) := by
  refine ⟨?_, ?_, ?_⟩
  · intro root db t h
    unfold getBackwardLinks
    rw [h]
  · intro root db t stem res hstem h
    exact getBackwardLinks_mem_iff hstem h
  · intro root abs rel db db' ops t stem res hrel hrm hops hstem hq pr hpr
    obtain ⟨rel', hrel', rfl⟩ := removeFile_ok_inv hrm
    rw [hrel] at hrel'
    have hrel2 : rel' = rel := by injection hrel' with e; exact e.symm
    subst hrel2
    have hbase : ∀ f ∈ (⟨db.files.filter (fun f => f.path ≠ rel'), db.metadata, db.wikilinks,
        db.labels⟩ : DbState).files, f.path ≠ rel' := by
      intro f hf
      simpa using (List.mem_filter.mp hf).2
    have hinv := execOps_no_rel ops _ hbase hops
    obtain ⟨r, hr, f, hf, ht, hid, rfl⟩ := (getBackwardLinks_mem_iff hstem hq pr).mp hpr
    intro he
    exact hinv f hf (List.append_cancel_left he)

/-- Witness for C3 at the stem-less target `[]`. -/
theorem C3_witness :
    getBackwardLinks [] emptyDb [] = .error .invalidFileName :=
  C3_backward_links.1 [] emptyDb [] rfl

/-- Claim C4 (amended): `store`, `getFile`, `getForwardLinks` and `remove`
reject any path not under the workspace root with the distinct out-of-scope
error before touching the store; `getBackwardLinks` performs no scope check —
it only requires an extractable file stem and answers from the whole index
for any such path. -/
theorem C4_path_scope_amended :
    (∀ (root : List String) (db : DbState) (abs : List String) (c m : Option Int)
        (now : Int) (p : ParsedFile), stripRoot root abs = none →
       storeFile root db abs c m now p = .error .outOfScope) ∧
    (∀ (root : List String) (db : DbState) (abs : List String), stripRoot root abs = none →
       getFile root db abs = .error .outOfScope) ∧
    (∀ (root : List String) (db : DbState) (abs : List String), stripRoot root abs = none →
       getForwardLinks root db abs = .error .outOfScope) ∧
    (∀ (root : List String) (db : DbState) (abs : List String), stripRoot root abs = none →
       removeFile root db abs = .error .outOfScope) ∧
    (∀ (root : List String) (db : DbState) (t : List String) (stem : String),
       fileStem t = some stem → ∃ res, getBackwardLinks root db t = .ok res) := by
  refine ⟨?_, ?_, ?_, ?_, ?_⟩
  · intro root db abs c m now p h; unfold storeFile; rw [h]
  · intro root db abs h; unfold getFile; rw [h]
  · intro root db abs h; unfold getForwardLinks; rw [h]
  · intro root db abs h; unfold removeFile; rw [h]
  · intro root db t stem h
    unfold getBackwardLinks
    rw [h]
    exact ⟨_, rfl⟩

/-- Witness for C4 at an out-of-scope store. -/
theorem C4_witness :
    storeFile ["ws"] emptyDb ["other", "b.typ"] none none 0 pfA = .error .outOfScope :=
  C4_path_scope_amended.1 ["ws"] emptyDb ["other", "b.typ"] none none 0 pfA rfl

/-- Counterexample to C4 as stated: the out-of-scope path `other/b.typ` is
not rejected by `getBackwardLinks` — the query succeeds and returns a
result. -/
theorem C4_counterexample :
    stripRoot ["ws"] ["other", "b.typ"] = none ∧
    (storeFile ["ws"] emptyDb ["ws", "a.typ"] none none 0 pfWs).bind
        (fun d => getBackwardLinks ["ws"] d ["other", "b.typ"]) =
      .ok [(["ws", "a.typ"], ⟨"b", none, none, 1, 1⟩)] :=
  ⟨rfl, rfl⟩

/-- Claim C5 (code bug evidence): storing a parsed file whose label has
`is_implicit = true` writes a labels row whose `is_implicit` column is NULL
(`none`) — the INSERT omits the column — and `getFile` returns the label
without the flag; the schema declares the column and the parser populates
the field, so the row does not mirror the Label fields plus `is_implicit`
as claimed. -/
theorem C5_labels_bug :
    storeFile [] emptyDb ["a"] none none 0 pfC5 =
      .ok ⟨[⟨1, ["a"], none, none, 0⟩], [], [], [⟨1, "h", 2, 3, none⟩]⟩ ∧
    getFile [] ⟨[⟨1, ["a"], none, none, 0⟩], [], [], [⟨1, "h", 2, 3, none⟩]⟩ ["a"] =
      .ok (some ⟨["a"], Metadata.defaultVal, [], [⟨"h", 2, 3, false⟩]⟩) ∧
    pfC5.labels = [⟨"h", 2, 3, true⟩] :=
  ⟨rfl, rfl, rfl⟩

/-- Claim C9 (amended): when the external tool runs but exits unsuccessfully,
metadata extraction degrades to the default `Metadata` and the whole parse
succeeds; when the tool cannot run, extraction fails — `TypstNotFound` for a
missing binary, `ExecutionError` otherwise — and `parse_file` propagates the
failure; malformed JSON is the distinct `JsonError`, different from
`TypstNotFound` and `ExecutionError`. -/
theorem C9_metadata_failures_amended :
    (∀ j : Option Json, extractMetadata (.output false j) = .ok Metadata.defaultVal) ∧
    (∀ (j : Option Json) (content : String) (path : List String),
       parseFile (.output false j) content path =
         .ok ⟨path, Metadata.defaultVal, parseWikilinks content, parseLabels content⟩) ∧
    extractMetadata .notFound = .error .typstNotFound ∧
    (∀ msg, extractMetadata (.failed msg) = .error (.executionError msg)) ∧
    extractMetadata (.output true none) = .error .jsonError ∧
    (∀ (content : String) (path : List String),
       parseFile .notFound content path = .error (.metadataError .typstNotFound)) ∧
    MetadataError.jsonError ≠ MetadataError.typstNotFound ∧
    (∀ msg, MetadataError.jsonError ≠ MetadataError.executionError msg) := by
  refine ⟨fun j => rfl, fun j content path => rfl, rfl, fun msg => rfl, rfl,
    fun content path => rfl, by simp, fun msg => by simp⟩

/-- Counterexample to C9 as stated: when the tool cannot run (`notFound`),
extraction returns the `TypstNotFound` error and `parse_file` fails, instead
of yielding empty metadata. -/
theorem C9_counterexample :
    extractMetadata SpawnResult.notFound = .error .typstNotFound ∧
    parseFile SpawnResult.notFound "" [] = .error (.metadataError .typstNotFound) :=
  ⟨rfl, rfl⟩

/-- Claim C10: a JSON text whose top-level value parses but is not an object
yields the default metadata without error; inside a top-level object,
non-string elements of the `tags` and `alias` arrays are silently dropped
and a non-string `title` is treated as absent. -/
theorem C10_metadata_shape_leniency :
    (∀ v : Json, v.isObj = false → parseMetadataJson (some v) = .ok Metadata.defaultVal) ∧
    foldMetadataValue (Json.obj [("title", .num 3),
        ("tags", .arr [.str "a", .num 1, .str "b"]),
        ("alias", .arr [.bool true, .str "x"]), ("k", .num 7)]) =
      ⟨none, ["a", "b"], ["x"], [("k", .num 7)]⟩ := by
  constructor
  · intro v hv
    cases v <;> first | rfl | exact absurd hv (by simp [Json.isObj])
  · rfl

/-- Witness for C10 at the non-object value `[]`. -/
theorem C10_witness :
    parseMetadataJson (some (Json.arr [])) = .ok Metadata.defaultVal :=
  C10_metadata_shape_leniency.1 (Json.arr []) rfl

end TypstOxide
